import Mathlib

/-!
# Image transform engine: formal model

Shallow embedding of the pixel-level transforms of the raster-image
enhancement tool (`main.rs`): RGB/HSV conversion, linear contrast stretch,
manual and Otsu thresholding, inversion and brightness shift.

Machine `u8` samples are modelled as `ℕ` together with a validity predicate
(every sample `≤ 255`).  The source's `f32`/`f64` arithmetic is modelled as
exact rational arithmetic (`ℚ`); Rust's `%` on floats and its saturating
`as u8` cast are modelled explicitly (`rustRem`, `u8cast`).  Images are
modelled by their pixel contents per format (`DynImage`); width and height
play no role in any of the verified transforms.
-/

/-- Truncation toward zero of a rational, as used by Rust float casts and `%`. -/
def qtrunc (x : ℚ) : ℤ := if 0 ≤ x then ⌊x⌋ else ⌈x⌉

/-- Rust floating-point remainder `x % y`, i.e. `x - y * trunc (x / y)`. -/
def rustRem (x y : ℚ) : ℚ := x - y * (qtrunc (x / y) : ℚ)

/-- Rust `as u8` cast from a float: truncate toward zero, saturating to `[0, 255]`. -/
def u8cast (x : ℚ) : ℕ := (min 255 (qtrunc x)).toNat

/-- An RGB pixel: three 8-bit samples, modelled as naturals. -/
structure Rgb where
  r : ℕ
  g : ℕ
  b : ℕ
deriving DecidableEq, Repr

/-- The pixel data of a `DynamicImage`, by pixel format (row-major pixel
list; width and height are irrelevant to the verified transforms). -/
inductive DynImage where
  | rgb8 (pixels : List Rgb)
  | luma8 (pixels : List ℕ)
  | rgba8 (pixels : List (Rgb × ℕ))
deriving DecidableEq, Repr

/-- All three samples of an RGB pixel fit in a `u8`. -/
def Rgb.Valid (p : Rgb) : Prop := p.r ≤ 255 ∧ p.g ≤ 255 ∧ p.b ≤ 255

/-- Every sample of the image fits in a `u8`. -/
def DynImage.Valid : DynImage → Prop
  | .rgb8 ps => ∀ p ∈ ps, p.Valid
  | .luma8 ps => ∀ l ∈ ps, l ≤ 255
  | .rgba8 ps => ∀ q ∈ ps, q.1.Valid ∧ q.2 ≤ 255

instance (p : Rgb) : Decidable p.Valid := by
  unfold Rgb.Valid; infer_instance

instance (img : DynImage) : Decidable img.Valid := by
  cases img <;> (unfold DynImage.Valid; infer_instance)

/-- Whether the image is in 8-bit RGB format. -/
def DynImage.isRgb8 : DynImage → Bool
  | .rgb8 _ => true
  | _ => false

/-- Whether the image carries an alpha channel. -/
def DynImage.isRgba8 : DynImage → Bool
  | .rgba8 _ => true
  | _ => false

/-- sRGB luma of an RGB pixel as computed by the `image` crate's grayscale
conversion (integer arithmetic, BT.709 coefficients scaled by 10000).  This
is the external image library's conversion, not repository code. -/
def lumaOfRgb (p : Rgb) : ℕ := (2126 * p.r + 7152 * p.g + 722 * p.b) / 10000

/-- `DynamicImage::to_rgb8`: a luma sample is replicated into the three
channels, an alpha channel is dropped. -/
def toRgb8 : DynImage → List Rgb
  | .rgb8 ps => ps
  | .luma8 ps => ps.map fun l => ⟨l, l, l⟩
  | .rgba8 ps => ps.map Prod.fst

/-- `DynamicImage::to_luma8`: grayscale conversion (alpha is ignored). -/
def toLuma8 : DynImage → List ℕ
  | .rgb8 ps => ps.map lumaOfRgb
  | .luma8 ps => ps
  | .rgba8 ps => ps.map fun q => lumaOfRgb q.1

/-- Core of `rgb_to_hsv` on the normalized channel values
(`r_ = r / 255` and so on in the source). -/
def rgbToHsvQ (x y z : ℚ) : ℚ × ℚ × ℚ :=
  let cmax := max (max x y) z
  let cmin := min (min x y) z
  let delta := cmax - cmin
  let hue :=
    if delta = 0 then 0
    else if cmax = x then 60 * rustRem ((y - z) / delta) 6
    else if cmax = y then 60 * ((z - x) / delta + 2)
    else 60 * ((x - y) / delta + 4)
  let h := if hue < 0 then hue + 360 else hue
  let s := if cmax = 0 then 0 else delta / cmax
  (h, s, cmax)

/-- `rgb_to_hsv`: normalize the 8-bit channels to `[0,1]` and convert. -/
def rgb_to_hsv (r g b : ℕ) : ℚ × ℚ × ℚ :=
  rgbToHsvQ ((r : ℚ) / 255) ((g : ℚ) / 255) ((b : ℚ) / 255)

/-- The RGB triple computed by `hsv_to_rgb` just before the `as u8` casts
(each component already scaled by 255). -/
def hsvToRgbTriple (h s v : ℚ) : ℚ × ℚ × ℚ :=
  let c := v * s
  let x := c * (1 - |rustRem (h / 60) 2 - 1|)
  let m := v - c
  let rgb :=
    if 0 ≤ h ∧ h < 60 then (c, x, (0 : ℚ))
    else if 60 ≤ h ∧ h < 120 then (x, c, 0)
    else if 120 ≤ h ∧ h < 180 then (0, c, x)
    else if 180 ≤ h ∧ h < 240 then (0, x, c)
    else if 240 ≤ h ∧ h < 300 then (x, 0, c)
    else (c, 0, x)
  ((rgb.1 + m) * 255, (rgb.2.1 + m) * 255, (rgb.2.2 + m) * 255)

/-- `hsv_to_rgb`: convert and quantize each channel with Rust's `as u8`. -/
def hsv_to_rgb (h s v : ℚ) : ℕ × ℕ × ℕ :=
  (u8cast (hsvToRgbTriple h s v).1, u8cast (hsvToRgbTriple h s v).2.1,
    u8cast (hsvToRgbTriple h s v).2.2)

/-- The Value channel of an RGB pixel. -/
def vOf (p : Rgb) : ℚ := (rgb_to_hsv p.r p.g p.b).2.2

/-- `apply_linear_contrast`: pass 1 scans the Value channel for its global
minimum and maximum (initialized to `1.0` and `0.0`); pass 2 remaps Value
when `max_v > min_v` and converts back to RGB. -/
def apply_linear_contrast (image : DynImage) : DynImage :=
  let img := toRgb8 image
  let mm := img.foldl (fun acc p => (min acc.1 (vOf p), max acc.2 (vOf p)))
    ((1 : ℚ), (0 : ℚ))
  DynImage.rgb8 <| img.map fun p =>
    let hsv := rgb_to_hsv p.r p.g p.b
    let v := if mm.1 < mm.2 then (hsv.2.2 - mm.1) / (mm.2 - mm.1) else hsv.2.2
    let c := hsv_to_rgb hsv.1 hsv.2.1 v
    ⟨c.1, c.2.1, c.2.2⟩

/-- `apply_manual_threshold`: grayscale pixels strictly above the threshold
become 255, all others 0; the output is a single-channel image. -/
def apply_manual_threshold (image : DynImage) (threshold : ℕ) : DynImage :=
  DynImage.luma8 <| (toLuma8 image).map fun p => if threshold < p then 255 else 0

/-- Cumulative histogram weight `w_b` below `t`: number of pixels with
intensity `< t`. -/
def Wcum (hist : ℕ → ℕ) (t : ℕ) : ℕ := ∑ i ∈ Finset.range t, hist i

/-- Cumulative first moment `sum_b` below `t`: `Σ_{i<t} i·hist i` (exact). -/
def SBcum (hist : ℕ → ℕ) (t : ℕ) : ℚ := ∑ i ∈ Finset.range t, (i : ℚ) * (hist i : ℚ)

/-- The `for t in 0..256` search loop of `apply_otsu_threshold`, with the
running state passed explicitly (`fuel` counts the remaining iterations;
f64 state modelled as `ℚ`).  `continue` on `w_b == 0`, early `break` on
`w_f == 0`, strictly-greater comparison against the running maximum. -/
def otsuGo (hist : ℕ → ℕ) (total : ℕ) (sum : ℚ) :
    ℕ → ℕ → ℚ → ℚ → ℚ → ℕ → ℕ
  | 0, _, _, _, _, opt => opt
  | fuel + 1, t, sum_b, w_b, maxv, opt =>
    let w_b' := w_b + (hist t : ℚ)
    if w_b' = 0 then otsuGo hist total sum fuel (t + 1) sum_b w_b' maxv opt
    else
      let w_f := (total : ℚ) - w_b'
      if w_f = 0 then opt
      else
        let sum_b' := sum_b + (t : ℚ) * (hist t : ℚ)
        let mean_b := sum_b' / w_b'
        let mean_f := (sum - sum_b') / w_f
        let variance := w_b' * w_f * (mean_b - mean_f) ^ 2
        if maxv < variance then otsuGo hist total sum fuel (t + 1) sum_b' w_b' variance t
        else otsuGo hist total sum fuel (t + 1) sum_b' w_b' maxv opt

/-- The Otsu threshold search of `apply_otsu_threshold`: histogram of the
grayscale pixels, total pixel count, total first moment, then the scan
starting from `sum_b = w_b = max_variance = 0`, `optimal_threshold = 0`. -/
def otsuThreshold (pixels : List ℕ) : ℕ :=
  let hist : ℕ → ℕ := fun i => pixels.count i
  otsuGo hist pixels.length (SBcum hist 256) 256 0 0 0 0 0

/-- `apply_otsu_threshold`: on a zero-pixel image return the input
unchanged, otherwise threshold at the found optimum. -/
def apply_otsu_threshold (image : DynImage) : DynImage :=
  if (toLuma8 image).length = 0 then image
  else apply_manual_threshold image (otsuThreshold (toLuma8 image))

/-- `apply_inversion`: convert to RGB8 and invert each channel. -/
def apply_inversion (image : DynImage) : DynImage :=
  DynImage.rgb8 <| (toRgb8 image).map fun p => ⟨255 - p.r, 255 - p.g, 255 - p.b⟩

/-- `apply_brightness`: convert to RGB8 and shift each channel by `value`
with a saturating clamp to `[0, 255]`. -/
def apply_brightness (image : DynImage) (value : ℤ) : DynImage :=
  DynImage.rgb8 <| (toRgb8 image).map fun p =>
    ⟨(min 255 (max 0 ((p.r : ℤ) + value))).toNat,
     (min 255 (max 0 ((p.g : ℤ) + value))).toNat,
     (min 255 (max 0 ((p.b : ℤ) + value))).toNat⟩

/-- A split `t` the Otsu scan evaluates: both classes are non-empty
(`w_b > 0` and `w_f > 0`). -/
def OtsuCandidate (hist : ℕ → ℕ) (total t : ℕ) : Prop :=
  t < 256 ∧ 0 < Wcum hist (t + 1) ∧ Wcum hist (t + 1) < total

instance (hist : ℕ → ℕ) (total t : ℕ) : Decidable (OtsuCandidate hist total t) := by
  unfold OtsuCandidate; infer_instance

/-- The between-class variance `w_b * w_f * (mean_b - mean_f)^2` at split `t`. -/
def otsuVar (hist : ℕ → ℕ) (total : ℕ) (sum : ℚ) (t : ℕ) : ℚ :=
  (Wcum hist (t + 1) : ℚ) * ((total : ℚ) - (Wcum hist (t + 1) : ℚ)) *
    (SBcum hist (t + 1) / (Wcum hist (t + 1) : ℚ) -
      (sum - SBcum hist (t + 1)) / ((total : ℚ) - (Wcum hist (t + 1) : ℚ))) ^ 2

/-! ## Helper lemmas -/

lemma toRgb8_valid {img : DynImage} (h : img.Valid) : ∀ p ∈ toRgb8 img, p.Valid := by
  cases img with
  | rgb8 ps => exact h
  | luma8 ps =>
    intro p hp
    simp only [toRgb8, List.mem_map] at hp
    obtain ⟨l, hl, rfl⟩ := hp
    exact ⟨h l hl, h l hl, h l hl⟩
  | rgba8 ps =>
    intro p hp
    simp only [toRgb8, List.mem_map] at hp
    obtain ⟨q, hq, rfl⟩ := hp
    exact (h q hq).1

lemma inv_inv_pixel (p : Rgb) (hp : p.Valid) :
    (⟨255 - (255 - p.r), 255 - (255 - p.g), 255 - (255 - p.b)⟩ : Rgb) = p := by
  obtain ⟨pr, pg, pb⟩ := p
  obtain ⟨h1, h2, h3⟩ := hp
  simp only [Rgb.mk.injEq]
  dsimp only at h1 h2 h3
  refine ⟨?_, ?_, ?_⟩ <;> omega

lemma map_inv_twice (L : List Rgb) (hv : ∀ p ∈ L, p.Valid) :
    (L.map fun p => (⟨255 - p.r, 255 - p.g, 255 - p.b⟩ : Rgb)).map
      (fun p => (⟨255 - p.r, 255 - p.g, 255 - p.b⟩ : Rgb)) = L := by
  induction L with
  | nil => rfl
  | cons p ps ih =>
    simp only [List.map_cons, List.cons.injEq]
    exact ⟨inv_inv_pixel p (hv p (List.mem_cons_self p ps)),
      ih fun q hq => hv q (List.mem_cons_of_mem p hq)⟩

lemma inversion_inversion_eq (img : DynImage) (h : img.Valid) :
    apply_inversion (apply_inversion img) = DynImage.rgb8 (toRgb8 img) :=
  congrArg DynImage.rgb8 (map_inv_twice (toRgb8 img) (toRgb8_valid h))

/-! ## Claim theorems: point transforms and formats -/

/-- Claim C2 counterexample: applying inversion twice to a grayscale image
does not return the original image (the result is an RGB8 image). -/
theorem inversion_involutive_cex :
    apply_inversion (apply_inversion (DynImage.luma8 [0])) ≠ DynImage.luma8 [0] := by
  decide

/-- Claim C2 (amended): applying inversion twice returns the RGB8
conversion of the input image; for an RGB8 input (with 8-bit samples) this
is the original image exactly. -/
theorem inversion_involutive_amended (img : DynImage) (h : img.Valid) :
    apply_inversion (apply_inversion img) = DynImage.rgb8 (toRgb8 img) ∧
    ∀ ps, img = DynImage.rgb8 ps → apply_inversion (apply_inversion img) = img := by
  refine ⟨inversion_inversion_eq img h, ?_⟩
  rintro ps rfl
  exact inversion_inversion_eq _ h

/-- Claim C2 witness. -/
theorem inversion_involutive_amended_witness :
    (DynImage.rgb8 [⟨1, 2, 3⟩]).Valid ∧
    (apply_inversion (apply_inversion (DynImage.rgb8 [⟨1, 2, 3⟩])) =
        DynImage.rgb8 (toRgb8 (DynImage.rgb8 [⟨1, 2, 3⟩])) ∧
      ∀ ps, DynImage.rgb8 [⟨1, 2, 3⟩] = DynImage.rgb8 ps →
        apply_inversion (apply_inversion (DynImage.rgb8 [⟨1, 2, 3⟩])) =
          DynImage.rgb8 [⟨1, 2, 3⟩]) :=
  ⟨by decide, inversion_involutive_amended (DynImage.rgb8 [⟨1, 2, 3⟩]) (by decide)⟩

/-- Claim C5: manual thresholding maps every pixel of grayscale intensity
strictly greater than `t` to 255 and all others to 0; the output is a
single-channel binary image; at `t = 127`, intensity 128 maps to 255 and
intensity 127 maps to 0. -/
theorem manual_threshold_strict (img : DynImage) (t : ℕ) :
    ∃ bs : List ℕ, apply_manual_threshold img t = DynImage.luma8 bs ∧
      bs.length = (toLuma8 img).length ∧
      (∀ (i : ℕ) (hi : i < (toLuma8 img).length) (hb : i < bs.length),
        bs[i] = if t < (toLuma8 img)[i] then 255 else 0) ∧
      (∀ v ∈ bs, v = 0 ∨ v = 255) ∧
      apply_manual_threshold (DynImage.luma8 [128]) 127 = DynImage.luma8 [255] ∧
      apply_manual_threshold (DynImage.luma8 [127]) 127 = DynImage.luma8 [0] := by
  refine ⟨(toLuma8 img).map fun p => if t < p then 255 else 0, rfl,
    List.length_map _ _, ?_, ?_, by decide, by decide⟩
  · intro i hi hb
    simp [List.getElem_map]
  · intro v hv
    simp only [List.mem_map] at hv
    obtain ⟨p, _, rfl⟩ := hv
    by_cases h : t < p <;> simp [h]

/-- Claim C5 witness. -/
theorem manual_threshold_strict_witness :
    ∃ bs : List ℕ, apply_manual_threshold (DynImage.luma8 [128, 127]) 127 = DynImage.luma8 bs ∧
      bs.length = (toLuma8 (DynImage.luma8 [128, 127])).length ∧
      (∀ (i : ℕ) (hi : i < (toLuma8 (DynImage.luma8 [128, 127])).length) (hb : i < bs.length),
        bs[i] = if 127 < (toLuma8 (DynImage.luma8 [128, 127]))[i] then 255 else 0) ∧
      (∀ v ∈ bs, v = 0 ∨ v = 255) ∧
      apply_manual_threshold (DynImage.luma8 [128]) 127 = DynImage.luma8 [255] ∧
      apply_manual_threshold (DynImage.luma8 [127]) 127 = DynImage.luma8 [0] :=
  manual_threshold_strict (DynImage.luma8 [128, 127]) 127

/-- Claim C7: on a zero-pixel image the Otsu transform returns the input
image unchanged (defined no-op, no search is performed). -/
theorem otsu_empty_noop (img : DynImage) (h : toLuma8 img = []) :
    apply_otsu_threshold img = img := by
  unfold apply_otsu_threshold
  rw [h]
  simp

/-- Claim C7 witness. -/
theorem otsu_empty_noop_witness :
    toLuma8 (DynImage.rgba8 []) = [] ∧
    apply_otsu_threshold (DynImage.rgba8 []) = DynImage.rgba8 [] :=
  ⟨rfl, otsu_empty_noop (DynImage.rgba8 []) rfl⟩

/-- Claim C9 counterexample: inverting an RGBA image does not leave the
alpha channel untouched — the output is an RGB8 image with no alpha
channel at all. -/
theorem inversion_alpha_cex :
    apply_inversion (DynImage.rgba8 [(⟨1, 2, 3⟩, 7)]) = DynImage.rgb8 [⟨254, 253, 252⟩] ∧
    DynImage.isRgba8 (apply_inversion (DynImage.rgba8 [(⟨1, 2, 3⟩, 7)])) = false := by
  decide

/-- Claim C9 (amended): on an RGBA input, inversion discards the alpha
channel entirely (the output is RGB8) and inverts the R, G and B samples. -/
theorem inversion_drops_alpha (qs : List (Rgb × ℕ)) :
    apply_inversion (DynImage.rgba8 qs) =
      DynImage.rgb8 (qs.map fun q => ⟨255 - q.1.r, 255 - q.1.g, 255 - q.1.b⟩) ∧
    DynImage.isRgba8 (apply_inversion (DynImage.rgba8 qs)) = false := by
  refine ⟨?_, rfl⟩
  simp only [apply_inversion, toRgb8, List.map_map]
  rfl

/-- Claim C9 witness. -/
theorem inversion_drops_alpha_witness :
    apply_inversion (DynImage.rgba8 [(⟨1, 2, 3⟩, 7), (⟨4, 5, 6⟩, 9)]) =
      DynImage.rgb8 ([(⟨1, 2, 3⟩, 7), (⟨4, 5, 6⟩, 9)].map
        fun q : Rgb × ℕ => ⟨255 - q.1.r, 255 - q.1.g, 255 - q.1.b⟩) ∧
    DynImage.isRgba8 (apply_inversion
      (DynImage.rgba8 [(⟨1, 2, 3⟩, 7), (⟨4, 5, 6⟩, 9)])) = false :=
  inversion_drops_alpha [(⟨1, 2, 3⟩, 7), (⟨4, 5, 6⟩, 9)]

/-- Claim C10: inversion, brightness shift and linear contrast stretch
always return an RGB8 image, operating on the RGB8 conversion of the input
(grayscale is expanded, alpha is dropped), so the input's pixel format is
not preserved. -/
theorem transforms_return_rgb8 (img : DynImage) (value : ℤ) :
    (apply_inversion img).isRgb8 = true ∧
    (apply_brightness img value).isRgb8 = true ∧
    (apply_linear_contrast img).isRgb8 = true ∧
    apply_inversion img = apply_inversion (DynImage.rgb8 (toRgb8 img)) ∧
    apply_brightness img value = apply_brightness (DynImage.rgb8 (toRgb8 img)) value ∧
    apply_linear_contrast img = apply_linear_contrast (DynImage.rgb8 (toRgb8 img)) :=
  ⟨rfl, rfl, rfl, rfl, rfl, rfl⟩

/-- Claim C10 witness. -/
theorem transforms_return_rgb8_witness :
    (apply_inversion (DynImage.luma8 [7])).isRgb8 = true ∧
    (apply_brightness (DynImage.luma8 [7]) 5).isRgb8 = true ∧
    (apply_linear_contrast (DynImage.luma8 [7])).isRgb8 = true ∧
    apply_inversion (DynImage.luma8 [7]) =
      apply_inversion (DynImage.rgb8 (toRgb8 (DynImage.luma8 [7]))) ∧
    apply_brightness (DynImage.luma8 [7]) 5 =
      apply_brightness (DynImage.rgb8 (toRgb8 (DynImage.luma8 [7]))) 5 ∧
    apply_linear_contrast (DynImage.luma8 [7]) =
      apply_linear_contrast (DynImage.rgb8 (toRgb8 (DynImage.luma8 [7]))) :=
  transforms_return_rgb8 (DynImage.luma8 [7]) 5

/-! ## Rational facts about `qtrunc` / `rustRem` -/

lemma qtrunc_eq_zero {x : ℚ} (h1 : -1 < x) (h2 : x < 1) : qtrunc x = 0 := by
  unfold qtrunc
  split_ifs with h0
  · exact Int.floor_eq_zero_iff.mpr ⟨h0, h2⟩
  · exact Int.ceil_eq_zero_iff.mpr ⟨h1, le_of_not_le h0⟩

lemma rustRem_small {x y : ℚ} (hy : 0 < y) (h1 : -y < x) (h2 : x < y) :
    rustRem x y = x := by
  unfold rustRem
  rw [qtrunc_eq_zero (by rw [lt_div_iff hy]; linarith) ((div_lt_one hy).mpr h2)]
  push_cast
  ring

lemma rustRem_two_0 {w : ℚ} (h1 : 0 ≤ w) (h2 : w < 2) : rustRem w 2 = w := by
  have hf : ⌊w / 2⌋ = 0 := by
    rw [Int.floor_eq_iff]
    refine ⟨?_, ?_⟩
    · push_cast
      exact div_nonneg h1 (by norm_num)
    · push_cast
      rw [div_lt_iff (by norm_num : (0:ℚ) < 2)]
      linarith
  unfold rustRem qtrunc
  rw [if_pos (div_nonneg h1 (by norm_num)), hf]
  push_cast
  ring

lemma rustRem_two_1 {w : ℚ} (h1 : 2 ≤ w) (h2 : w < 4) : rustRem w 2 = w - 2 := by
  have hf : ⌊w / 2⌋ = 1 := by
    rw [Int.floor_eq_iff]
    refine ⟨?_, ?_⟩
    · push_cast
      rw [le_div_iff (by norm_num : (0:ℚ) < 2)]
      linarith
    · push_cast
      rw [div_lt_iff (by norm_num : (0:ℚ) < 2)]
      linarith
  unfold rustRem qtrunc
  rw [if_pos (div_nonneg (by linarith) (by norm_num)), hf]
  push_cast
  ring

lemma rustRem_two_2 {w : ℚ} (h1 : 4 ≤ w) (h2 : w < 6) : rustRem w 2 = w - 4 := by
  have hf : ⌊w / 2⌋ = 2 := by
    rw [Int.floor_eq_iff]
    refine ⟨?_, ?_⟩
    · push_cast
      rw [le_div_iff (by norm_num : (0:ℚ) < 2)]
      linarith
    · push_cast
      rw [div_lt_iff (by norm_num : (0:ℚ) < 2)]
      linarith
  unfold rustRem qtrunc
  rw [if_pos (div_nonneg (by linarith) (by norm_num)), hf]
  push_cast
  ring

/-! ## Sector evaluation of `hsv_to_rgb` -/

lemma hsvSector0 (h s v : ℚ) (h1 : 0 ≤ h) (h2 : h < 60) :
    hsvToRgbTriple h s v =
      (255 * v, 255 * (v * s * (h / 60) + v - v * s), 255 * (v - v * s)) := by
  have e1 : rustRem (h / 60) 2 = h / 60 :=
    rustRem_two_0 (div_nonneg h1 (by norm_num))
      ((div_lt_iff (by norm_num : (0:ℚ) < 60)).mpr (by linarith))
  have e2 : |h / 60 - 1| = 1 - h / 60 := by
    have hb : h / 60 ≤ 1 := by
      rw [div_le_one (by norm_num : (0:ℚ) < 60)]
      linarith
    rw [abs_of_nonpos (by linarith)]
    ring
  simp only [hsvToRgbTriple]
  rw [if_pos ⟨h1, h2⟩, e1, e2]
  simp only [Prod.mk.injEq]
  exact ⟨by ring, by ring, by ring⟩

lemma hsvSector1 (h s v : ℚ) (h1 : 60 ≤ h) (h2 : h < 120) :
    hsvToRgbTriple h s v =
      (255 * (v * s * (2 - h / 60) + v - v * s), 255 * v, 255 * (v - v * s)) := by
  have e1 : rustRem (h / 60) 2 = h / 60 :=
    rustRem_two_0 (div_nonneg (by linarith) (by norm_num))
      ((div_lt_iff (by norm_num : (0:ℚ) < 60)).mpr (by linarith))
  have e2 : |h / 60 - 1| = h / 60 - 1 := by
    have hb : (1:ℚ) ≤ h / 60 := by
      rw [le_div_iff (by norm_num : (0:ℚ) < 60)]
      linarith
    rw [abs_of_nonneg (by linarith)]
  simp only [hsvToRgbTriple]
  rw [if_neg (by rintro ⟨-, hlt⟩; linarith), if_pos ⟨h1, h2⟩, e1, e2]
  simp only [Prod.mk.injEq]
  exact ⟨by ring, by ring, by ring⟩

lemma hsvSector2 (h s v : ℚ) (h1 : 120 ≤ h) (h2 : h < 180) :
    hsvToRgbTriple h s v =
      (255 * (v - v * s), 255 * v, 255 * (v * s * (h / 60 - 2) + v - v * s)) := by
  have e1 : rustRem (h / 60) 2 = h / 60 - 2 :=
    rustRem_two_1 ((le_div_iff (by norm_num : (0:ℚ) < 60)).mpr (by linarith))
      ((div_lt_iff (by norm_num : (0:ℚ) < 60)).mpr (by linarith))
  have e2 : |h / 60 - 2 - 1| = 3 - h / 60 := by
    have hb : h / 60 ≤ 3 := by
      rw [div_le_iff (by norm_num : (0:ℚ) < 60)]
      linarith
    rw [abs_of_nonpos (by linarith)]
    ring
  simp only [hsvToRgbTriple]
  rw [if_neg (by rintro ⟨-, hlt⟩; linarith), if_neg (by rintro ⟨-, hlt⟩; linarith),
    if_pos ⟨h1, h2⟩, e1, e2]
  simp only [Prod.mk.injEq]
  exact ⟨by ring, by ring, by ring⟩

lemma hsvSector3 (h s v : ℚ) (h1 : 180 ≤ h) (h2 : h < 240) :
    hsvToRgbTriple h s v =
      (255 * (v - v * s), 255 * (v * s * (4 - h / 60) + v - v * s), 255 * v) := by
  have e1 : rustRem (h / 60) 2 = h / 60 - 2 :=
    rustRem_two_1 ((le_div_iff (by norm_num : (0:ℚ) < 60)).mpr (by linarith))
      ((div_lt_iff (by norm_num : (0:ℚ) < 60)).mpr (by linarith))
  have e2 : |h / 60 - 2 - 1| = h / 60 - 3 := by
    have hb : (3:ℚ) ≤ h / 60 := by
      rw [le_div_iff (by norm_num : (0:ℚ) < 60)]
      linarith
    rw [abs_of_nonneg (by linarith)]
    ring
  simp only [hsvToRgbTriple]
  rw [if_neg (by rintro ⟨-, hlt⟩; linarith), if_neg (by rintro ⟨-, hlt⟩; linarith),
    if_neg (by rintro ⟨-, hlt⟩; linarith), if_pos ⟨h1, h2⟩, e1, e2]
  simp only [Prod.mk.injEq]
  exact ⟨by ring, by ring, by ring⟩

lemma hsvSector4 (h s v : ℚ) (h1 : 240 ≤ h) (h2 : h < 300) :
    hsvToRgbTriple h s v =
      (255 * (v * s * (h / 60 - 4) + v - v * s), 255 * (v - v * s), 255 * v) := by
  have e1 : rustRem (h / 60) 2 = h / 60 - 4 :=
    rustRem_two_2 ((le_div_iff (by norm_num : (0:ℚ) < 60)).mpr (by linarith))
      ((div_lt_iff (by norm_num : (0:ℚ) < 60)).mpr (by linarith))
  have e2 : |h / 60 - 4 - 1| = 5 - h / 60 := by
    have hb : h / 60 ≤ 5 := by
      rw [div_le_iff (by norm_num : (0:ℚ) < 60)]
      linarith
    rw [abs_of_nonpos (by linarith)]
    ring
  simp only [hsvToRgbTriple]
  rw [if_neg (by rintro ⟨-, hlt⟩; linarith), if_neg (by rintro ⟨-, hlt⟩; linarith),
    if_neg (by rintro ⟨-, hlt⟩; linarith), if_neg (by rintro ⟨-, hlt⟩; linarith),
    if_pos ⟨h1, h2⟩, e1, e2]
  simp only [Prod.mk.injEq]
  exact ⟨by ring, by ring, by ring⟩

lemma hsvSector5 (h s v : ℚ) (h1 : 300 ≤ h) (h2 : h < 360) :
    hsvToRgbTriple h s v =
      (255 * v, 255 * (v - v * s), 255 * (v * s * (6 - h / 60) + v - v * s)) := by
  have e1 : rustRem (h / 60) 2 = h / 60 - 4 :=
    rustRem_two_2 ((le_div_iff (by norm_num : (0:ℚ) < 60)).mpr (by linarith))
      ((div_lt_iff (by norm_num : (0:ℚ) < 60)).mpr (by linarith))
  have e2 : |h / 60 - 4 - 1| = h / 60 - 5 := by
    have hb : (5:ℚ) ≤ h / 60 := by
      rw [le_div_iff (by norm_num : (0:ℚ) < 60)]
      linarith
    rw [abs_of_nonneg (by linarith)]
    ring
  simp only [hsvToRgbTriple]
  rw [if_neg (by rintro ⟨-, hlt⟩; linarith), if_neg (by rintro ⟨-, hlt⟩; linarith),
    if_neg (by rintro ⟨-, hlt⟩; linarith), if_neg (by rintro ⟨-, hlt⟩; linarith),
    if_neg (by rintro ⟨-, hlt⟩; linarith), e1, e2]
  simp only [Prod.mk.injEq]
  exact ⟨by ring, by ring, by ring⟩

/-! ## Branch evaluation of `rgb_to_hsv` -/

lemma rgbToHsvQ_gray (x y z : ℚ)
    (hd : max (max x y) z - min (min x y) z = 0) :
    rgbToHsvQ x y z = (0, 0, x) ∧ y = x ∧ z = x := by
  have hMx : x ≤ max (max x y) z := le_trans (le_max_left x y) (le_max_left _ z)
  have hMy : y ≤ max (max x y) z := le_trans (le_max_right x y) (le_max_left _ z)
  have hMz : z ≤ max (max x y) z := le_max_right _ z
  have hmx : min (min x y) z ≤ x := le_trans (min_le_left _ z) (min_le_left x y)
  have hmy : min (min x y) z ≤ y := le_trans (min_le_left _ z) (min_le_right x y)
  have hmz : min (min x y) z ≤ z := min_le_right _ z
  have hMm : max (max x y) z = min (min x y) z := by linarith
  have hxM : x = max (max x y) z := le_antisymm hMx (by linarith)
  have hyM : y = max (max x y) z := le_antisymm hMy (by linarith)
  have hzM : z = max (max x y) z := le_antisymm hMz (by linarith)
  refine ⟨?_, by linarith, by linarith⟩
  simp only [rgbToHsvQ]
  rw [if_pos hd, if_neg (lt_irrefl (0 : ℚ))]
  split_ifs with hM0
  · rw [← hxM]
  · have hxm : x = min (min x y) z := hxM.trans hMm
    rw [hMm, sub_self, zero_div, ← hxm]

lemma rgbToHsvQ_case_x (x y z : ℚ) (hcx : max (max x y) z = x)
    (hd : max (max x y) z - min (min x y) z ≠ 0)
    (hy0 : 0 ≤ y) (hz0 : 0 ≤ z) :
    rgbToHsvQ x y z =
      (if 60 * ((y - z) / (x - min y z)) < 0 then 60 * ((y - z) / (x - min y z)) + 360
        else 60 * ((y - z) / (x - min y z)), (x - min y z) / x, x) := by
  have hyx : y ≤ x := by rw [← hcx]; exact le_trans (le_max_right x y) (le_max_left _ z)
  have hzx : z ≤ x := by rw [← hcx]; exact le_max_right _ z
  have hmin : min (min x y) z = min y z := by rw [min_eq_right hyx]
  have hd2 : x - min y z ≠ 0 := by rw [hcx, hmin] at hd; exact hd
  have hminy : min y z ≤ y := min_le_left y z
  have hminz : min y z ≤ z := min_le_right y z
  have hdp : 0 < x - min y z :=
    lt_of_le_of_ne (by simp only [sub_nonneg]; exact le_trans hminy hyx) (Ne.symm hd2)
  have hm0 : 0 ≤ min y z := le_min hy0 hz0
  have hxpos : 0 < x := by linarith
  have hw : rustRem ((y - z) / (x - min y z)) 6 = (y - z) / (x - min y z) := by
    refine rustRem_small (by norm_num) ?_ ?_
    · rw [lt_div_iff hdp]
      linarith
    · rw [div_lt_iff hdp]
      linarith
  simp only [rgbToHsvQ]
  rw [hcx, hmin, if_neg hd2, if_pos rfl, hw, if_neg (ne_of_gt hxpos)]

lemma rgbToHsvQ_case_y (x y z : ℚ) (hcx : ¬ max (max x y) z = x)
    (hcy : max (max x y) z = y)
    (hd : max (max x y) z - min (min x y) z ≠ 0)
    (hx0 : 0 ≤ x) (hz0 : 0 ≤ z) :
    rgbToHsvQ x y z =
      (60 * ((z - x) / (y - min x z) + 2), (y - min x z) / y, y) := by
  have hxM : x ≤ max (max x y) z := le_trans (le_max_left x y) (le_max_left _ z)
  have hxy : x < y :=
    lt_of_le_of_ne (by rw [← hcy]; exact hxM) (fun heq => hcx (by rw [hcy, heq]))
  have hzy : z ≤ y := by rw [← hcy]; exact le_max_right _ z
  have hmin : min (min x y) z = min x z := by rw [min_eq_left (le_of_lt hxy)]
  have hd2 : y - min x z ≠ 0 := by rw [hcy, hmin] at hd; exact hd
  have hminx : min x z ≤ x := min_le_left x z
  have hminz : min x z ≤ z := min_le_right x z
  have hdp : 0 < y - min x z :=
    lt_of_le_of_ne (by simp only [sub_nonneg]; exact le_trans hminx (le_of_lt hxy))
      (Ne.symm hd2)
  have hm0 : 0 ≤ min x z := le_min hx0 hz0
  have hypos : 0 < y := by linarith
  have hwlo : -1 ≤ (z - x) / (y - min x z) := by
    rw [le_div_iff hdp]
    linarith
  have hnneg : ¬ 60 * ((z - x) / (y - min x z) + 2) < 0 := by
    push_neg
    nlinarith
  simp only [rgbToHsvQ]
  rw [hcy, hmin, if_neg hd2, if_neg (fun heq => hcx (hcy.trans heq)), if_pos rfl,
    if_neg hnneg, if_neg (ne_of_gt hypos)]

lemma rgbToHsvQ_case_z (x y z : ℚ) (hcx : ¬ max (max x y) z = x)
    (hcy : ¬ max (max x y) z = y)
    (hd : max (max x y) z - min (min x y) z ≠ 0)
    (hx0 : 0 ≤ x) (hy0 : 0 ≤ y) :
    rgbToHsvQ x y z =
      (60 * ((x - y) / (z - min x y) + 4), (z - min x y) / z, z) := by
  have hMz : max (max x y) z = z := by
    rcases max_choice (max x y) z with h | h
    · rcases max_choice x y with h2 | h2
      · exact absurd (h.trans h2) hcx
      · exact absurd (h.trans h2) hcy
    · exact h
  have hxz : x < z :=
    lt_of_le_of_ne
      (by rw [← hMz]; exact le_trans (le_max_left x y) (le_max_left _ z))
      (fun heq => hcx (by rw [hMz, heq]))
  have hyz : y < z :=
    lt_of_le_of_ne
      (by rw [← hMz]; exact le_trans (le_max_right x y) (le_max_left _ z))
      (fun heq => hcy (by rw [hMz, heq]))
  have hmin : min (min x y) z = min x y :=
    min_eq_left (le_trans (min_le_left x y) (le_of_lt hxz))
  have hd2 : z - min x y ≠ 0 := by rw [hMz, hmin] at hd; exact hd
  have hminx : min x y ≤ x := min_le_left x y
  have hminy : min x y ≤ y := min_le_right x y
  have hdp : 0 < z - min x y :=
    lt_of_le_of_ne (by simp only [sub_nonneg]; exact le_trans hminx (le_of_lt hxz))
      (Ne.symm hd2)
  have hm0 : 0 ≤ min x y := le_min hx0 hy0
  have hzpos : 0 < z := by linarith
  have hwlo : -1 ≤ (x - y) / (z - min x y) := by
    rw [le_div_iff hdp]
    linarith
  have hnneg : ¬ 60 * ((x - y) / (z - min x y) + 4) < 0 := by
    push_neg
    nlinarith
  simp only [rgbToHsvQ]
  rw [hMz, hmin, if_neg hd2, if_neg (fun heq => hcx (hMz.trans heq)),
    if_neg (fun heq => hcy (hMz.trans heq)), if_neg hnneg, if_neg (ne_of_gt hzpos)]

/-! ## The exact-arithmetic round trip -/

lemma roundtripQ (x y z : ℚ) (hx : 0 ≤ x) (hy : 0 ≤ y) (hz : 0 ≤ z) :
    hsvToRgbTriple (rgbToHsvQ x y z).1 (rgbToHsvQ x y z).2.1 (rgbToHsvQ x y z).2.2 =
      (255 * x, 255 * y, 255 * z) := by
  by_cases hd : max (max x y) z - min (min x y) z = 0
  · obtain ⟨hconv, hyx, hzx⟩ := rgbToHsvQ_gray x y z hd
    rw [hconv]
    dsimp only
    rw [hsvSector0 0 0 x le_rfl (by norm_num), hyx, hzx]
    simp only [Prod.mk.injEq]
    exact ⟨by ring, by ring, by ring⟩
  · by_cases hcx : max (max x y) z = x
    · have hconv := rgbToHsvQ_case_x x y z hcx hd hy hz
      have hyx : y ≤ x := by
        rw [← hcx]; exact le_trans (le_max_right x y) (le_max_left _ z)
      have hzx : z ≤ x := by rw [← hcx]; exact le_max_right _ z
      rcases le_or_lt z y with hzy | hyz
      · -- cmin = z, hue in [0, 60]
        rw [min_eq_right hzy] at hconv
        have hd2 : x - z ≠ 0 := by
          rw [hcx, min_eq_right hyx, min_eq_right hzy] at hd; exact hd
        have hdp : 0 < x - z :=
          lt_of_le_of_ne (sub_nonneg.mpr (le_trans hzy hyx)) (Ne.symm hd2)
        have hxpos : 0 < x := by linarith
        have hxne : x ≠ 0 := ne_of_gt hxpos
        have hw0 : 0 ≤ (y - z) / (x - z) := div_nonneg (by linarith) (le_of_lt hdp)
        rw [hconv]
        dsimp only
        rw [if_neg (not_lt.mpr (by linarith : (0:ℚ) ≤ 60 * ((y - z) / (x - z))))]
        rcases eq_or_lt_of_le hyx with heq | hylt
        · have hw1 : (y - z) / (x - z) = 1 := by rw [heq]; exact div_self hd2
          rw [hw1, mul_one]
          rw [hsvSector1 60 _ x (by norm_num) (by norm_num)]
          simp only [Prod.mk.injEq]
          refine ⟨?_, ?_, ?_⟩
          · field_simp
            ring
          · rw [heq]
          · field_simp
        · have hwlt : (y - z) / (x - z) < 1 := (div_lt_one hdp).mpr (by linarith)
          rw [hsvSector0 _ _ _ (by linarith) (by linarith)]
          simp only [Prod.mk.injEq]
          refine ⟨by ring, ?_, ?_⟩
          · field_simp
            ring
          · field_simp
      · -- cmin = y, hue in [300, 360)
        rw [min_eq_left (le_of_lt hyz)] at hconv
        have hd2 : x - y ≠ 0 := by
          rw [hcx, min_eq_right hyx, min_eq_left (le_of_lt hyz)] at hd; exact hd
        have hdp : 0 < x - y := lt_of_le_of_ne (sub_nonneg.mpr hyx) (Ne.symm hd2)
        have hxpos : 0 < x := by linarith
        have hxne : x ≠ 0 := ne_of_gt hxpos
        have hwneg : (y - z) / (x - y) < 0 := div_neg_of_neg_of_pos (by linarith) hdp
        have hwlo : -1 ≤ (y - z) / (x - y) := by
          rw [le_div_iff hdp]
          linarith
        rw [hconv]
        dsimp only
        rw [if_pos (by linarith : 60 * ((y - z) / (x - y)) < 0)]
        rw [hsvSector5 _ _ _ (by linarith) (by linarith)]
        simp only [Prod.mk.injEq]
        refine ⟨by ring, ?_, ?_⟩
        · field_simp
        · field_simp
          ring
    · by_cases hcy : max (max x y) z = y
      · have hconv := rgbToHsvQ_case_y x y z hcx hcy hd hx hz
        have hxy : x < y :=
          lt_of_le_of_ne
            (by rw [← hcy]; exact le_trans (le_max_left x y) (le_max_left _ z))
            (fun heq => hcx (by rw [hcy, heq]))
        have hzy : z ≤ y := by rw [← hcy]; exact le_max_right _ z
        rcases lt_trichotomy z x with hzx | heq | hxz
        · -- cmin = z, hue in [60, 120)
          rw [min_eq_right (le_of_lt hzx)] at hconv
          have hd2 : y - z ≠ 0 := by
            rw [hcy, min_eq_left (le_of_lt hxy), min_eq_right (le_of_lt hzx)] at hd
            exact hd
          have hdp : 0 < y - z := lt_of_le_of_ne (sub_nonneg.mpr hzy) (Ne.symm hd2)
          have hypos : 0 < y := by linarith
          have hyne : y ≠ 0 := ne_of_gt hypos
          have hwneg : (z - x) / (y - z) < 0 := div_neg_of_neg_of_pos (by linarith) hdp
          have hwlo : -1 ≤ (z - x) / (y - z) := by
            rw [le_div_iff hdp]
            linarith
          rw [hconv]
          dsimp only
          rw [hsvSector1 _ _ _ (by linarith) (by linarith)]
          simp only [Prod.mk.injEq]
          refine ⟨?_, by ring, ?_⟩
          · field_simp
            ring
          · field_simp
        · -- z = x, hue = 120
          rw [heq] at hconv ⊢
          rw [min_self] at hconv
          have hdp : 0 < y - x := by linarith
          have hd2 : y - x ≠ 0 := ne_of_gt hdp
          have hypos : 0 < y := by linarith
          have hyne : y ≠ 0 := ne_of_gt hypos
          have hH : 60 * ((x - x) / (y - x) + 2) = 120 := by
            rw [sub_self, zero_div]
            norm_num
          rw [hH] at hconv
          rw [hconv]
          dsimp only
          rw [hsvSector2 120 _ y (by norm_num) (by norm_num)]
          simp only [Prod.mk.injEq]
          refine ⟨?_, by ring, ?_⟩
          · field_simp
          · field_simp
            ring
        · -- x < z
          rw [min_eq_left (le_of_lt hxz)] at hconv
          have hd2 : y - x ≠ 0 := by
            rw [hcy, min_eq_left (le_of_lt hxy), min_eq_left (le_of_lt hxz)] at hd
            exact hd
          have hdp : 0 < y - x := lt_of_le_of_ne (sub_nonneg.mpr (le_of_lt hxy)) (Ne.symm hd2)
          have hypos : 0 < y := by linarith
          have hyne : y ≠ 0 := ne_of_gt hypos
          have hwpos : 0 < (z - x) / (y - x) := div_pos (by linarith) hdp
          rcases eq_or_lt_of_le hzy with heqzy | hzy'
          · -- z = y, hue = 180
            rw [heqzy] at hconv ⊢
            have hw1 : (y - x) / (y - x) = 1 := div_self hd2
            rw [hw1] at hconv
            have hH : (60 : ℚ) * (1 + 2) = 180 := by norm_num
            rw [hH] at hconv
            rw [hconv]
            dsimp only
            rw [hsvSector3 180 _ y (by norm_num) (by norm_num)]
            simp only [Prod.mk.injEq]
            refine ⟨?_, ?_, by ring⟩
            · field_simp
            · field_simp
              ring
          · -- z < y, hue in (120, 180)
            have hwlt : (z - x) / (y - x) < 1 := by
              rw [div_lt_one hdp]
              linarith
            rw [hconv]
            dsimp only
            rw [hsvSector2 _ _ _ (by linarith) (by linarith)]
            simp only [Prod.mk.injEq]
            refine ⟨?_, by ring, ?_⟩
            · field_simp
            · field_simp
              ring
      · have hconv := rgbToHsvQ_case_z x y z hcx hcy hd hx hy
        have hMz : max (max x y) z = z := by
          rcases max_choice (max x y) z with h | h
          · rcases max_choice x y with h2 | h2
            · exact absurd (h.trans h2) hcx
            · exact absurd (h.trans h2) hcy
          · exact h
        have hxz : x < z :=
          lt_of_le_of_ne
            (by rw [← hMz]; exact le_trans (le_max_left x y) (le_max_left _ z))
            (fun heq => hcx (by rw [hMz, heq]))
        have hyz : y < z :=
          lt_of_le_of_ne
            (by rw [← hMz]; exact le_trans (le_max_right x y) (le_max_left _ z))
            (fun heq => hcy (by rw [hMz, heq]))
        have hzpos : 0 < z := by linarith
        have hzne : z ≠ 0 := ne_of_gt hzpos
        rcases lt_trichotomy x y with hxy | heq | hyx
        · -- cmin = x, hue in (180, 240)
          rw [min_eq_left (le_of_lt hxy)] at hconv
          have hdp : 0 < z - x := by linarith
          have hd2 : z - x ≠ 0 := ne_of_gt hdp
          have hwneg : (x - y) / (z - x) < 0 := div_neg_of_neg_of_pos (by linarith) hdp
          have hwlo : -1 ≤ (x - y) / (z - x) := by
            rw [le_div_iff hdp]
            linarith
          rw [hconv]
          dsimp only
          rw [hsvSector3 _ _ _ (by linarith) (by linarith)]
          simp only [Prod.mk.injEq]
          refine ⟨?_, ?_, by ring⟩
          · field_simp
          · field_simp
            ring
        · -- x = y, hue = 240
          rw [← heq] at hconv ⊢
          rw [min_self] at hconv
          have hdp : 0 < z - x := by linarith
          have hd2 : z - x ≠ 0 := ne_of_gt hdp
          have hH : 60 * ((x - x) / (z - x) + 4) = 240 := by
            rw [sub_self, zero_div]
            norm_num
          rw [hH] at hconv
          rw [hconv]
          dsimp only
          rw [hsvSector4 240 _ z (by norm_num) (by norm_num)]
          simp only [Prod.mk.injEq]
          refine ⟨?_, ?_, by ring⟩
          · field_simp
            ring
          · field_simp
        · -- cmin = y, hue in (240, 300)
          rw [min_eq_right (le_of_lt hyx)] at hconv
          have hdp : 0 < z - y := by linarith
          have hd2 : z - y ≠ 0 := ne_of_gt hdp
          have hwpos : 0 < (x - y) / (z - y) := div_pos (by linarith) hdp
          have hwlt : (x - y) / (z - y) < 1 := by
            rw [div_lt_one hdp]
            linarith
          rw [hconv]
          dsimp only
          rw [hsvSector4 _ _ _ (by linarith) (by linarith)]
          simp only [Prod.mk.injEq]
          refine ⟨?_, ?_, by ring⟩
          · field_simp
            ring
          · field_simp

lemma u8cast_natCast (n : ℕ) (hn : n ≤ 255) : u8cast ((n : ℚ)) = n := by
  unfold u8cast qtrunc
  rw [if_pos (by positivity : (0:ℚ) ≤ (n : ℚ)), Int.floor_natCast]
  omega

lemma hsv_roundtrip_u8 (r g b : ℕ) (hr : r ≤ 255) (hg : g ≤ 255) (hb : b ≤ 255) :
    hsv_to_rgb (rgb_to_hsv r g b).1 (rgb_to_hsv r g b).2.1 (rgb_to_hsv r g b).2.2 =
      (r, g, b) := by
  unfold hsv_to_rgb rgb_to_hsv
  rw [roundtripQ ((r:ℚ)/255) ((g:ℚ)/255) ((b:ℚ)/255) (by positivity) (by positivity)
    (by positivity)]
  dsimp only
  rw [show (255 : ℚ) * ((r:ℚ)/255) = (r:ℚ) by field_simp,
    show (255 : ℚ) * ((g:ℚ)/255) = (g:ℚ) by field_simp,
    show (255 : ℚ) * ((b:ℚ)/255) = (b:ℚ) by field_simp,
    u8cast_natCast r hr, u8cast_natCast g hg, u8cast_natCast b hb]

lemma rgbToHsvQ_bounds (x y z : ℚ) (hx0 : 0 ≤ x) (hy0 : 0 ≤ y) (hz0 : 0 ≤ z)
    (hx1 : x ≤ 1) (hy1 : y ≤ 1) (hz1 : z ≤ 1) :
    0 ≤ (rgbToHsvQ x y z).1 ∧ (rgbToHsvQ x y z).1 < 360 ∧
    0 ≤ (rgbToHsvQ x y z).2.1 ∧ (rgbToHsvQ x y z).2.1 ≤ 1 ∧
    0 ≤ (rgbToHsvQ x y z).2.2 ∧ (rgbToHsvQ x y z).2.2 ≤ 1 := by
  by_cases hd : max (max x y) z - min (min x y) z = 0
  · obtain ⟨hconv, hyx, hzx⟩ := rgbToHsvQ_gray x y z hd
    rw [hconv]
    exact ⟨le_rfl, by norm_num, le_rfl, by norm_num, hx0, hx1⟩
  · by_cases hcx : max (max x y) z = x
    · have hconv := rgbToHsvQ_case_x x y z hcx hd hy0 hz0
      have hyx : y ≤ x := by
        rw [← hcx]; exact le_trans (le_max_right x y) (le_max_left _ z)
      have hzx : z ≤ x := by rw [← hcx]; exact le_max_right _ z
      have hm0 : 0 ≤ min y z := le_min hy0 hz0
      have hminy : min y z ≤ y := min_le_left y z
      have hminz : min y z ≤ z := min_le_right y z
      have hd2 : x - min y z ≠ 0 := by rw [hcx, min_eq_right hyx] at hd; exact hd
      have hdp : 0 < x - min y z :=
        lt_of_le_of_ne (by simp only [sub_nonneg]; exact le_trans hminy hyx) (Ne.symm hd2)
      have hxpos : 0 < x := by linarith
      have hwlo : -1 ≤ (y - z) / (x - min y z) := by
        rw [le_div_iff hdp]
        linarith
      have hwhi : (y - z) / (x - min y z) ≤ 1 := by
        rw [div_le_one hdp]
        linarith
      rw [hconv]
      dsimp only
      refine ⟨?_, ?_, div_nonneg (by linarith) (le_of_lt hxpos), ?_, hx0, hx1⟩
      · split_ifs with hneg
        · linarith
        · exact not_lt.mp hneg
      · split_ifs with hneg
        · linarith
        · linarith
      · rw [div_le_one hxpos]
        linarith
    · by_cases hcy : max (max x y) z = y
      · have hconv := rgbToHsvQ_case_y x y z hcx hcy hd hx0 hz0
        have hxy : x < y :=
          lt_of_le_of_ne
            (by rw [← hcy]; exact le_trans (le_max_left x y) (le_max_left _ z))
            (fun heq => hcx (by rw [hcy, heq]))
        have hzy : z ≤ y := by rw [← hcy]; exact le_max_right _ z
        have hm0 : 0 ≤ min x z := le_min hx0 hz0
        have hminx : min x z ≤ x := min_le_left x z
        have hminz : min x z ≤ z := min_le_right x z
        have hd2 : y - min x z ≠ 0 := by
          rw [hcy, min_eq_left (le_of_lt hxy)] at hd; exact hd
        have hdp : 0 < y - min x z :=
          lt_of_le_of_ne
            (by simp only [sub_nonneg]; exact le_trans hminx (le_of_lt hxy))
            (Ne.symm hd2)
        have hypos : 0 < y := by linarith
        have hwlo : -1 ≤ (z - x) / (y - min x z) := by
          rw [le_div_iff hdp]
          linarith
        have hwhi : (z - x) / (y - min x z) ≤ 1 := by
          rw [div_le_one hdp]
          linarith
        rw [hconv]
        dsimp only
        refine ⟨by linarith, by linarith,
          div_nonneg (by linarith) (le_of_lt hypos), ?_, hy0, hy1⟩
        rw [div_le_one hypos]
        linarith
      · have hconv := rgbToHsvQ_case_z x y z hcx hcy hd hx0 hy0
        have hMz : max (max x y) z = z := by
          rcases max_choice (max x y) z with h | h
          · rcases max_choice x y with h2 | h2
            · exact absurd (h.trans h2) hcx
            · exact absurd (h.trans h2) hcy
          · exact h
        have hxz : x ≤ z := by
          rw [← hMz]; exact le_trans (le_max_left x y) (le_max_left _ z)
        have hyz : y ≤ z := by
          rw [← hMz]; exact le_trans (le_max_right x y) (le_max_left _ z)
        have hm0 : 0 ≤ min x y := le_min hx0 hy0
        have hminx : min x y ≤ x := min_le_left x y
        have hminy : min x y ≤ y := min_le_right x y
        have hd2 : z - min x y ≠ 0 := by
          rw [hMz, min_eq_left (le_trans hminx hxz)] at hd; exact hd
        have hdp : 0 < z - min x y :=
          lt_of_le_of_ne
            (by simp only [sub_nonneg]; exact le_trans hminx hxz) (Ne.symm hd2)
        have hzpos : 0 < z := by linarith
        have hwlo : -1 ≤ (x - y) / (z - min x y) := by
          rw [le_div_iff hdp]
          linarith
        have hwhi : (x - y) / (z - min x y) ≤ 1 := by
          rw [div_le_one hdp]
          linarith
        rw [hconv]
        dsimp only
        refine ⟨by linarith, by linarith,
          div_nonneg (by linarith) (le_of_lt hzpos), ?_, hz0, hz1⟩
        rw [div_le_one hzpos]
        linarith

lemma rgb_to_hsv_bounds (r g b : ℕ) (hr : r ≤ 255) (hg : g ≤ 255) (hb : b ≤ 255) :
    0 ≤ (rgb_to_hsv r g b).1 ∧ (rgb_to_hsv r g b).1 < 360 ∧
    0 ≤ (rgb_to_hsv r g b).2.1 ∧ (rgb_to_hsv r g b).2.1 ≤ 1 ∧
    0 ≤ (rgb_to_hsv r g b).2.2 ∧ (rgb_to_hsv r g b).2.2 ≤ 1 := by
  unfold rgb_to_hsv
  refine rgbToHsvQ_bounds _ _ _ (by positivity) (by positivity) (by positivity) ?_ ?_ ?_
  · rw [div_le_one (by norm_num : (0:ℚ) < 255)]
    exact_mod_cast hr
  · rw [div_le_one (by norm_num : (0:ℚ) < 255)]
    exact_mod_cast hg
  · rw [div_le_one (by norm_num : (0:ℚ) < 255)]
    exact_mod_cast hb

/-! ## Claim theorems: color conversion -/

/-- Claim C3: for all 8-bit RGB inputs `(r,g,b)`, the round trip
`hsv_to_rgb (rgb_to_hsv (r,g,b))` produces a triple that differs from
`(r,g,b)` by at most 1 per channel.  (In this exact-rational model of the
`f32` arithmetic the round trip is in fact exactly the identity, which
implies the claimed quantization bound.) -/
theorem rgb_hsv_roundtrip_within_one (r g b : ℕ)
    (hr : r ≤ 255) (hg : g ≤ 255) (hb : b ≤ 255) :
    (hsv_to_rgb (rgb_to_hsv r g b).1 (rgb_to_hsv r g b).2.1 (rgb_to_hsv r g b).2.2).1 ≤ r + 1 ∧
    r ≤ (hsv_to_rgb (rgb_to_hsv r g b).1 (rgb_to_hsv r g b).2.1 (rgb_to_hsv r g b).2.2).1 + 1 ∧
    (hsv_to_rgb (rgb_to_hsv r g b).1 (rgb_to_hsv r g b).2.1 (rgb_to_hsv r g b).2.2).2.1 ≤ g + 1 ∧
    g ≤ (hsv_to_rgb (rgb_to_hsv r g b).1 (rgb_to_hsv r g b).2.1 (rgb_to_hsv r g b).2.2).2.1 + 1 ∧
    (hsv_to_rgb (rgb_to_hsv r g b).1 (rgb_to_hsv r g b).2.1 (rgb_to_hsv r g b).2.2).2.2 ≤ b + 1 ∧
    b ≤ (hsv_to_rgb (rgb_to_hsv r g b).1 (rgb_to_hsv r g b).2.1 (rgb_to_hsv r g b).2.2).2.2 + 1 := by
  rw [hsv_roundtrip_u8 r g b hr hg hb]
  dsimp only
  omega

/-- Claim C3 witness. -/
theorem rgb_hsv_roundtrip_within_one_witness :
    (12 ≤ 255 ∧ 200 ≤ 255 ∧ 57 ≤ 255) ∧
    ((hsv_to_rgb (rgb_to_hsv 12 200 57).1 (rgb_to_hsv 12 200 57).2.1
        (rgb_to_hsv 12 200 57).2.2).1 ≤ 12 + 1 ∧
      12 ≤ (hsv_to_rgb (rgb_to_hsv 12 200 57).1 (rgb_to_hsv 12 200 57).2.1
        (rgb_to_hsv 12 200 57).2.2).1 + 1 ∧
      (hsv_to_rgb (rgb_to_hsv 12 200 57).1 (rgb_to_hsv 12 200 57).2.1
        (rgb_to_hsv 12 200 57).2.2).2.1 ≤ 200 + 1 ∧
      200 ≤ (hsv_to_rgb (rgb_to_hsv 12 200 57).1 (rgb_to_hsv 12 200 57).2.1
        (rgb_to_hsv 12 200 57).2.2).2.1 + 1 ∧
      (hsv_to_rgb (rgb_to_hsv 12 200 57).1 (rgb_to_hsv 12 200 57).2.1
        (rgb_to_hsv 12 200 57).2.2).2.2 ≤ 57 + 1 ∧
      57 ≤ (hsv_to_rgb (rgb_to_hsv 12 200 57).1 (rgb_to_hsv 12 200 57).2.1
        (rgb_to_hsv 12 200 57).2.2).2.2 + 1) :=
  ⟨⟨by decide, by decide, by decide⟩,
    rgb_hsv_roundtrip_within_one 12 200 57 (by decide) (by decide) (by decide)⟩

/-- Claim C6: for every 8-bit RGB triple, `rgb_to_hsv` returns
`h ∈ [0,360)`, `s ∈ [0,1]` and `v ∈ [0,1]` (a negative sector hue is
normalized by adding 360, as visible in the `hue < 0` branch of
`rgbToHsvQ`). -/
theorem rgb_to_hsv_ranges (r g b : ℕ) (hr : r ≤ 255) (hg : g ≤ 255) (hb : b ≤ 255) :
    0 ≤ (rgb_to_hsv r g b).1 ∧ (rgb_to_hsv r g b).1 < 360 ∧
    0 ≤ (rgb_to_hsv r g b).2.1 ∧ (rgb_to_hsv r g b).2.1 ≤ 1 ∧
    0 ≤ (rgb_to_hsv r g b).2.2 ∧ (rgb_to_hsv r g b).2.2 ≤ 1 :=
  rgb_to_hsv_bounds r g b hr hg hb

/-- Claim C6 witness. -/
theorem rgb_to_hsv_ranges_witness :
    (10 ≤ 255 ∧ 30 ≤ 255 ∧ 250 ≤ 255) ∧
    (0 ≤ (rgb_to_hsv 10 30 250).1 ∧ (rgb_to_hsv 10 30 250).1 < 360 ∧
      0 ≤ (rgb_to_hsv 10 30 250).2.1 ∧ (rgb_to_hsv 10 30 250).2.1 ≤ 1 ∧
      0 ≤ (rgb_to_hsv 10 30 250).2.2 ∧ (rgb_to_hsv 10 30 250).2.2 ≤ 1) :=
  ⟨⟨by decide, by decide, by decide⟩,
    rgb_to_hsv_ranges 10 30 250 (by decide) (by decide) (by decide)⟩

/-! ## Claim theorems: linear contrast stretch on flat images -/

lemma foldl_minmax_replicate (c : Rgb) (n : ℕ) (a b : ℚ) :
    (List.replicate n c).foldl
      (fun acc p => (min acc.1 (vOf p), max acc.2 (vOf p))) (a, b) =
      if n = 0 then (a, b) else (min a (vOf c), max b (vOf c)) := by
  induction n generalizing a b with
  | zero => rfl
  | succ m ih =>
    rw [List.replicate_succ, List.foldl_cons]
    dsimp only
    rw [ih, if_neg (show ¬(m + 1 = 0) by omega)]
    by_cases hm : m = 0
    · rw [if_pos hm]
    · rw [if_neg hm, min_assoc, min_self, max_assoc, max_self]

/-- Claim C4 counterexample: on a flat single-pixel grayscale image the
linear contrast stretch does not return the image unchanged — the output
is an RGB8 image, not the original single-channel image. -/
theorem linear_contrast_flat_cex :
    apply_linear_contrast (DynImage.luma8 [5]) ≠ DynImage.luma8 [5] := by
  decide

/-- Claim C4 (amended): on a flat image (`toRgb8` is `n` copies of one
valid pixel `c`) the Value remap is skipped (`max_v ≤ min_v`) and every
output pixel equals the corresponding pixel of the RGB8 conversion of the
input; a flat RGB8 input is returned unchanged exactly. -/
theorem linear_contrast_flat (img : DynImage) (n : ℕ) (c : Rgb) (hc : c.Valid)
    (h : toRgb8 img = List.replicate n c) :
    apply_linear_contrast img = DynImage.rgb8 (List.replicate n c) ∧
    ∀ ps, img = DynImage.rgb8 ps → apply_linear_contrast img = img := by
  have hv := rgb_to_hsv_bounds c.r c.g c.b hc.1 hc.2.1 hc.2.2
  have hv0 : 0 ≤ vOf c := hv.2.2.2.2.1
  have hv1 : vOf c ≤ 1 := hv.2.2.2.2.2
  have key : apply_linear_contrast img = DynImage.rgb8 (List.replicate n c) := by
    simp only [apply_linear_contrast]
    rw [h, List.map_replicate]
    cases n with
    | zero => rfl
    | succ m =>
      congr 1
      congr 1
      dsimp only
      rw [foldl_minmax_replicate, if_neg (show ¬(m + 1 = 0) by omega)]
      dsimp only
      rw [min_eq_right hv1, max_eq_right hv0, if_neg (lt_irrefl (vOf c)),
        hsv_roundtrip_u8 c.r c.g c.b hc.1 hc.2.1 hc.2.2]
  refine ⟨key, ?_⟩
  intro ps hps
  rw [key, hps]
  subst hps
  exact congrArg DynImage.rgb8 h.symm

/-- Claim C4 witness. -/
theorem linear_contrast_flat_witness :
    ((⟨1, 2, 3⟩ : Rgb).Valid ∧
      toRgb8 (DynImage.rgb8 [⟨1, 2, 3⟩, ⟨1, 2, 3⟩]) = List.replicate 2 ⟨1, 2, 3⟩) ∧
    (apply_linear_contrast (DynImage.rgb8 [⟨1, 2, 3⟩, ⟨1, 2, 3⟩]) =
        DynImage.rgb8 (List.replicate 2 ⟨1, 2, 3⟩) ∧
      ∀ ps, DynImage.rgb8 [⟨1, 2, 3⟩, ⟨1, 2, 3⟩] = DynImage.rgb8 ps →
        apply_linear_contrast (DynImage.rgb8 [⟨1, 2, 3⟩, ⟨1, 2, 3⟩]) =
          DynImage.rgb8 [⟨1, 2, 3⟩, ⟨1, 2, 3⟩]) :=
  ⟨⟨by decide, by decide⟩,
    linear_contrast_flat (DynImage.rgb8 [⟨1, 2, 3⟩, ⟨1, 2, 3⟩]) 2 ⟨1, 2, 3⟩
      (by decide) (by decide)⟩

/-! ## Otsu search: cumulative-statistics lemmas -/

lemma Wcum_succ (hist : ℕ → ℕ) (t : ℕ) : Wcum hist (t + 1) = Wcum hist t + hist t :=
  Finset.sum_range_succ hist t

lemma SBcum_succ (hist : ℕ → ℕ) (t : ℕ) :
    SBcum hist (t + 1) = SBcum hist t + (t : ℚ) * (hist t : ℚ) :=
  Finset.sum_range_succ _ t

lemma Wcum_mono (hist : ℕ → ℕ) {s t : ℕ} (h : s ≤ t) : Wcum hist s ≤ Wcum hist t :=
  Finset.sum_le_sum_of_subset (Finset.range_subset.mpr h)

set_option maxRecDepth 4000 in
/-- Every split the scan evaluates has strictly positive between-class
variance: the background mean is at most `t` while the foreground mean is
at least `t + 1`. -/
lemma otsuVar_pos (hist : ℕ → ℕ) (total : ℕ) (sum : ℚ)
    (htot : Wcum hist 256 = total) (hsum : sum = SBcum hist 256)
    {t : ℕ} (hc : OtsuCandidate hist total t) :
    0 < otsuVar hist total sum t := by
  obtain ⟨ht, hwb, hwf⟩ := hc
  have hwbQ : (0 : ℚ) < (Wcum hist (t + 1) : ℚ) := by exact_mod_cast hwb
  have hwfQ : (0 : ℚ) < (total : ℚ) - (Wcum hist (t + 1) : ℚ) := by
    have h1 : (Wcum hist (t + 1) : ℚ) < (total : ℚ) := by exact_mod_cast hwf
    linarith
  have hSB_le : SBcum hist (t + 1) ≤ (t : ℚ) * (Wcum hist (t + 1) : ℚ) := by
    unfold SBcum Wcum
    rw [Nat.cast_sum, Finset.mul_sum]
    refine Finset.sum_le_sum ?_
    intro i hi
    have hit : i ≤ t := by
      have := Finset.mem_range.mp hi
      omega
    have hcast : (i : ℚ) ≤ (t : ℚ) := by exact_mod_cast hit
    exact mul_le_mul_of_nonneg_right hcast (Nat.cast_nonneg _)
  have hsplit : sum - SBcum hist (t + 1) =
      ∑ i ∈ Finset.Ico (t + 1) 256, (i : ℚ) * (hist i : ℚ) := by
    rw [hsum]
    unfold SBcum
    exact (Finset.sum_Ico_eq_sub _ (by omega : t + 1 ≤ 256)).symm
  have hWsplit : ∑ i ∈ Finset.Ico (t + 1) 256, (hist i : ℚ) =
      (total : ℚ) - (Wcum hist (t + 1) : ℚ) := by
    rw [Finset.sum_Ico_eq_sub _ (by omega : t + 1 ≤ 256), ← htot]
    unfold Wcum
    rw [Nat.cast_sum, Nat.cast_sum]
  have hSBf_ge : ((t : ℚ) + 1) * ((total : ℚ) - (Wcum hist (t + 1) : ℚ)) ≤
      sum - SBcum hist (t + 1) := by
    rw [hsplit, ← hWsplit, Finset.mul_sum]
    refine Finset.sum_le_sum ?_
    intro i hi
    have hi1 : t + 1 ≤ i := (Finset.mem_Ico.mp hi).1
    have hcast : ((t : ℚ) + 1) ≤ (i : ℚ) := by exact_mod_cast hi1
    exact mul_le_mul_of_nonneg_right hcast (Nat.cast_nonneg _)
  have hmb : SBcum hist (t + 1) / (Wcum hist (t + 1) : ℚ) ≤ (t : ℚ) := by
    rw [div_le_iff hwbQ]
    linarith
  have hmf : ((t : ℚ) + 1) ≤
      (sum - SBcum hist (t + 1)) / ((total : ℚ) - (Wcum hist (t + 1) : ℚ)) := by
    rw [le_div_iff hwfQ]
    linarith
  have hne : SBcum hist (t + 1) / (Wcum hist (t + 1) : ℚ) -
      (sum - SBcum hist (t + 1)) / ((total : ℚ) - (Wcum hist (t + 1) : ℚ)) ≠ 0 :=
    sub_ne_zero.mpr (ne_of_lt (by linarith))
  unfold otsuVar
  exact mul_pos (mul_pos hwbQ hwfQ) (pow_two_pos_of_ne_zero hne)

/-- One unfolding step of the search loop. -/
lemma otsuGo_succ (hist : ℕ → ℕ) (total : ℕ) (sum : ℚ) (m t : ℕ)
    (sum_b w_b maxv : ℚ) (opt : ℕ) :
    otsuGo hist total sum (m + 1) t sum_b w_b maxv opt =
      if w_b + (hist t : ℚ) = 0 then
        otsuGo hist total sum m (t + 1) sum_b (w_b + (hist t : ℚ)) maxv opt
      else if (total : ℚ) - (w_b + (hist t : ℚ)) = 0 then opt
      else
        if maxv < (w_b + (hist t : ℚ)) * ((total : ℚ) - (w_b + (hist t : ℚ))) *
            ((sum_b + (t : ℚ) * (hist t : ℚ)) / (w_b + (hist t : ℚ)) -
              (sum - (sum_b + (t : ℚ) * (hist t : ℚ))) /
                ((total : ℚ) - (w_b + (hist t : ℚ)))) ^ 2 then
          otsuGo hist total sum m (t + 1) (sum_b + (t : ℚ) * (hist t : ℚ))
            (w_b + (hist t : ℚ))
            ((w_b + (hist t : ℚ)) * ((total : ℚ) - (w_b + (hist t : ℚ))) *
              ((sum_b + (t : ℚ) * (hist t : ℚ)) / (w_b + (hist t : ℚ)) -
                (sum - (sum_b + (t : ℚ) * (hist t : ℚ))) /
                  ((total : ℚ) - (w_b + (hist t : ℚ)))) ^ 2) t
        else
          otsuGo hist total sum m (t + 1) (sum_b + (t : ℚ) * (hist t : ℚ))
            (w_b + (hist t : ℚ)) maxv opt := rfl

/-- Loop invariant for the Otsu scan: entering iteration `t`, `w_b` and
`sum_b` are the cumulative statistics below `t` and `(maxv, opt)` record
the running maximum variance and the first split attaining it; on exit the
returned threshold is the first maximizer over all candidate splits (or 0
when no candidate exists). -/
lemma otsuGo_spec (hist : ℕ → ℕ) (total : ℕ) (sum : ℚ)
    (htot : Wcum hist 256 = total) (hsum : sum = SBcum hist 256) :
    ∀ (fuel t : ℕ) (sum_b w_b maxv : ℚ) (opt : ℕ),
      t + fuel = 256 →
      w_b = (Wcum hist t : ℚ) →
      sum_b = SBcum hist t →
      ((opt = 0 ∧ maxv = 0 ∧ ∀ c, c < t → ¬ OtsuCandidate hist total c) ∨
        (OtsuCandidate hist total opt ∧ opt < t ∧
          otsuVar hist total sum opt = maxv ∧
          (∀ c, c < t → OtsuCandidate hist total c → otsuVar hist total sum c ≤ maxv) ∧
          (∀ c, c < opt → OtsuCandidate hist total c → otsuVar hist total sum c < maxv))) →
      ((otsuGo hist total sum fuel t sum_b w_b maxv opt = 0 ∧
          ∀ c, ¬ OtsuCandidate hist total c) ∨
        (OtsuCandidate hist total (otsuGo hist total sum fuel t sum_b w_b maxv opt) ∧
          (∀ c, OtsuCandidate hist total c →
            otsuVar hist total sum c ≤
              otsuVar hist total sum (otsuGo hist total sum fuel t sum_b w_b maxv opt)) ∧
          (∀ c, c < otsuGo hist total sum fuel t sum_b w_b maxv opt →
            OtsuCandidate hist total c →
            otsuVar hist total sum c <
              otsuVar hist total sum (otsuGo hist total sum fuel t sum_b w_b maxv opt)))) := by
  intro fuel
  induction fuel with
  | zero =>
    intro t sum_b w_b maxv opt hft hwb hsb hinv
    have ht : t = 256 := by omega
    simp only [otsuGo]
    rcases hinv with ⟨h0, hm0, hnone⟩ | ⟨hcand, hlt, heq, hub, hstrict⟩
    · left
      refine ⟨h0, ?_⟩
      intro c hc
      have h1 : c < 256 := hc.1
      exact hnone c (by omega) hc
    · right
      refine ⟨hcand, ?_, ?_⟩
      · intro c hc
        have h1 : c < 256 := hc.1
        rw [heq]
        exact hub c (by omega) hc
      · intro c hco hc
        rw [heq]
        exact hstrict c hco hc
  | succ m ih =>
    intro t sum_b w_b maxv opt hft hwb hsb hinv
    have ht256 : t < 256 := by omega
    rw [otsuGo_succ]
    by_cases hz : w_b + (hist t : ℚ) = 0
    · rw [if_pos hz]
      have hWQ : ((Wcum hist (t + 1) : ℕ) : ℚ) = 0 := by
        rw [Wcum_succ]
        push_cast
        rw [← hwb]
        exact hz
      have hW1 : Wcum hist (t + 1) = 0 := by exact_mod_cast hWQ
      have hhist : hist t = 0 := by
        have := Wcum_succ hist t
        omega
      have hcandt : ¬ OtsuCandidate hist total t := by
        intro hc
        obtain ⟨-, h1, -⟩ := hc
        omega
      apply ih (t + 1) sum_b (w_b + (hist t : ℚ)) maxv opt (by omega) ?_ ?_ ?_
      · rw [Wcum_succ, Nat.cast_add, hwb]
      · rw [SBcum_succ, hhist]
        push_cast
        rw [mul_zero, add_zero]
        exact hsb
      · rcases hinv with ⟨h0, hm0, hnone⟩ | ⟨hcand, hlt, heq, hub, hstrict⟩
        · left
          refine ⟨h0, hm0, ?_⟩
          intro c hc
          rcases Nat.lt_succ_iff_lt_or_eq.mp hc with h | rfl
          · exact hnone c h
          · exact hcandt
        · right
          refine ⟨hcand, by omega, heq, ?_, hstrict⟩
          intro c hc hcc
          rcases Nat.lt_succ_iff_lt_or_eq.mp hc with h | rfl
          · exact hub c h hcc
          · exact absurd hcc hcandt
    · rw [if_neg hz]
      have hwb1 : ((Wcum hist (t + 1)) : ℚ) = w_b + (hist t : ℚ) := by
        rw [Wcum_succ]
        push_cast
        rw [hwb]
      have hsb1 : SBcum hist (t + 1) = sum_b + (t : ℚ) * (hist t : ℚ) := by
        rw [SBcum_succ, hsb]
      by_cases hwf : (total : ℚ) - (w_b + (hist t : ℚ)) = 0
      · rw [if_pos hwf]
        have hWtN : Wcum hist (t + 1) = total := by
          have hq : ((Wcum hist (t + 1)) : ℚ) = (total : ℚ) := by
            rw [hwb1]
            linarith
          exact_mod_cast hq
        have hnocand : ∀ c, t ≤ c → ¬ OtsuCandidate hist total c := by
          intro c hc hcc
          obtain ⟨-, -, h2⟩ := hcc
          have hmono : Wcum hist (t + 1) ≤ Wcum hist (c + 1) := Wcum_mono hist (by omega)
          omega
        rcases hinv with ⟨h0, hm0, hnone⟩ | ⟨hcand, hlt, heq, hub, hstrict⟩
        · left
          refine ⟨h0, ?_⟩
          intro c hcc
          rcases lt_or_ge c t with h | h
          · exact hnone c h hcc
          · exact hnocand c h hcc
        · right
          refine ⟨hcand, ?_, ?_⟩
          · intro c hcc
            rcases lt_or_ge c t with h | h
            · rw [heq]
              exact hub c h hcc
            · exact absurd hcc (hnocand c h)
          · intro c hco hcc
            rw [heq]
            exact hstrict c hco hcc
      · rw [if_neg hwf]
        have hW1pos : 0 < Wcum hist (t + 1) := by
          by_contra hcon
          push_neg at hcon
          have h0' : Wcum hist (t + 1) = 0 := by omega
          rw [h0'] at hwb1
          push_cast at hwb1
          exact hz hwb1.symm
        have hWlt : Wcum hist (t + 1) < total := by
          have hle : Wcum hist (t + 1) ≤ total := by
            rw [← htot]
            exact Wcum_mono hist (by omega)
          rcases lt_or_eq_of_le hle with h | h
          · exact h
          · exfalso
            apply hwf
            rw [← hwb1, h]
            exact sub_self _
        have hcandt : OtsuCandidate hist total t := ⟨ht256, hW1pos, hWlt⟩
        have hvar : otsuVar hist total sum t =
            (w_b + (hist t : ℚ)) * ((total : ℚ) - (w_b + (hist t : ℚ))) *
              ((sum_b + (t : ℚ) * (hist t : ℚ)) / (w_b + (hist t : ℚ)) -
                (sum - (sum_b + (t : ℚ) * (hist t : ℚ))) /
                  ((total : ℚ) - (w_b + (hist t : ℚ)))) ^ 2 := by
          unfold otsuVar
          rw [hwb1, hsb1]
        have hvarpos : 0 < otsuVar hist total sum t :=
          otsuVar_pos hist total sum htot hsum hcandt
        by_cases hcmp : maxv < (w_b + (hist t : ℚ)) * ((total : ℚ) - (w_b + (hist t : ℚ))) *
            ((sum_b + (t : ℚ) * (hist t : ℚ)) / (w_b + (hist t : ℚ)) -
              (sum - (sum_b + (t : ℚ) * (hist t : ℚ))) /
                ((total : ℚ) - (w_b + (hist t : ℚ)))) ^ 2
        · rw [if_pos hcmp]
          refine ih (t + 1) (sum_b + (t : ℚ) * (hist t : ℚ)) (w_b + (hist t : ℚ))
            ((w_b + (hist t : ℚ)) * ((total : ℚ) - (w_b + (hist t : ℚ))) *
              ((sum_b + (t : ℚ) * (hist t : ℚ)) / (w_b + (hist t : ℚ)) -
                (sum - (sum_b + (t : ℚ) * (hist t : ℚ))) /
                  ((total : ℚ) - (w_b + (hist t : ℚ)))) ^ 2) t
            (by omega) hwb1.symm hsb1.symm ?_
          right
          refine ⟨hcandt, by omega, hvar.symm ▸ hvar, ?_, ?_⟩
          · intro c hc hcc
            rcases Nat.lt_succ_iff_lt_or_eq.mp hc with h | rfl
            · have hle : otsuVar hist total sum c ≤ maxv := by
                rcases hinv with ⟨-, -, hnone⟩ | ⟨-, -, -, hub, -⟩
                · exact absurd hcc (hnone c h)
                · exact hub c h hcc
              linarith
            · exact le_of_eq hvar
          · intro c hco hcc
            have hle : otsuVar hist total sum c ≤ maxv := by
              rcases hinv with ⟨-, -, hnone⟩ | ⟨-, -, -, hub, -⟩
              · exact absurd hcc (hnone c (by omega))
              · exact hub c (by omega) hcc
            linarith
        · rw [if_neg hcmp]
          have hinvr : OtsuCandidate hist total opt ∧ opt < t ∧
              otsuVar hist total sum opt = maxv ∧
              (∀ c, c < t → OtsuCandidate hist total c →
                otsuVar hist total sum c ≤ maxv) ∧
              (∀ c, c < opt → OtsuCandidate hist total c →
                otsuVar hist total sum c < maxv) := by
            rcases hinv with ⟨-, hm0, -⟩ | hr
            · exfalso
              apply hcmp
              rw [hm0, ← hvar]
              exact hvarpos
            · exact hr
          obtain ⟨hcand, hlt, heq, hub, hstrict⟩ := hinvr
          refine ih (t + 1) (sum_b + (t : ℚ) * (hist t : ℚ)) (w_b + (hist t : ℚ))
            maxv opt (by omega) hwb1.symm hsb1.symm ?_
          right
          refine ⟨hcand, by omega, heq, ?_, hstrict⟩
          intro c hc hcc
          rcases Nat.lt_succ_iff_lt_or_eq.mp hc with h | rfl
          · exact hub c h hcc
          · rw [← hvar] at hcmp
            exact not_lt.mp hcmp

/-- What the full scan returns: either no candidate split exists and the
threshold is the initial 0, or the threshold is a candidate attaining the
maximum variance, and strictly exceeding every earlier candidate. -/
lemma otsuThreshold_spec (pixels : List ℕ)
    (htot : Wcum (fun i => pixels.count i) 256 = pixels.length) :
    ((otsuThreshold pixels = 0 ∧
        ∀ c, ¬ OtsuCandidate (fun i => pixels.count i) pixels.length c) ∨
      (OtsuCandidate (fun i => pixels.count i) pixels.length (otsuThreshold pixels) ∧
        (∀ c, OtsuCandidate (fun i => pixels.count i) pixels.length c →
          otsuVar (fun i => pixels.count i) pixels.length
              (SBcum (fun i => pixels.count i) 256) c ≤
            otsuVar (fun i => pixels.count i) pixels.length
              (SBcum (fun i => pixels.count i) 256) (otsuThreshold pixels)) ∧
        (∀ c, c < otsuThreshold pixels →
          OtsuCandidate (fun i => pixels.count i) pixels.length c →
          otsuVar (fun i => pixels.count i) pixels.length
              (SBcum (fun i => pixels.count i) 256) c <
            otsuVar (fun i => pixels.count i) pixels.length
              (SBcum (fun i => pixels.count i) 256) (otsuThreshold pixels)))) := by
  have h := otsuGo_spec (fun i => pixels.count i) pixels.length
    (SBcum (fun i => pixels.count i) 256) htot rfl 256 0 0 0 0 0
    (by omega) (by simp [Wcum]) (by simp [SBcum])
    (Or.inl ⟨rfl, rfl, fun c hc => absurd hc (Nat.not_lt_zero c)⟩)
  exact h

lemma sum_count_eq_length (pixels : List ℕ) (hval : ∀ p ∈ pixels, p ≤ 255) :
    Wcum (fun i => pixels.count i) 256 = pixels.length := by
  unfold Wcum
  induction pixels with
  | nil => simp
  | cons a l ih =>
    have ha : a ≤ 255 := hval a (List.mem_cons_self a l)
    have ihl := ih fun p hp => hval p (List.mem_cons_of_mem a hp)
    simp only [List.count_cons, beq_iff_eq, List.length_cons]
    rw [Finset.sum_add_distrib, ihl]
    have hone : (∑ i ∈ Finset.range 256, if a = i then 1 else 0) = 1 := by
      rw [Finset.sum_ite_eq (Finset.range 256) a fun _ => 1,
        if_pos (Finset.mem_range.mpr (by omega))]
    rw [hone]

/-! ## Claim theorems: Otsu search -/

/-- Claim C1: whenever at least one candidate split exists (some `t` with
`w_b > 0` and `w_f > 0`), the Otsu search returns the first (smallest)
threshold maximizing the between-class variance
`w_b * w_f * (mean_b - mean_f)^2` over all candidate splits: the result is
a candidate, its variance is maximal, and every earlier candidate has
strictly smaller variance (strictly-greater comparison, so later
equal-variance candidates never overwrite the first maximizer); splits with
`w_b = 0` are skipped and the scan stops at `w_f = 0`. -/
theorem otsu_first_argmax (pixels : List ℕ) (hval : ∀ p ∈ pixels, p ≤ 255)
    (t₀ : ℕ) (h₀ : OtsuCandidate (fun i => pixels.count i) pixels.length t₀) :
    OtsuCandidate (fun i => pixels.count i) pixels.length (otsuThreshold pixels) ∧
    (∀ c, OtsuCandidate (fun i => pixels.count i) pixels.length c →
      otsuVar (fun i => pixels.count i) pixels.length
          (SBcum (fun i => pixels.count i) 256) c ≤
        otsuVar (fun i => pixels.count i) pixels.length
          (SBcum (fun i => pixels.count i) 256) (otsuThreshold pixels)) ∧
    (∀ c, c < otsuThreshold pixels →
      OtsuCandidate (fun i => pixels.count i) pixels.length c →
      otsuVar (fun i => pixels.count i) pixels.length
          (SBcum (fun i => pixels.count i) 256) c <
        otsuVar (fun i => pixels.count i) pixels.length
          (SBcum (fun i => pixels.count i) 256) (otsuThreshold pixels)) := by
  rcases otsuThreshold_spec pixels (sum_count_eq_length pixels hval) with ⟨-, hnone⟩ | h
  · exact absurd h₀ (hnone t₀)
  · exact h

/-- Claim C1 witness. -/
theorem otsu_first_argmax_witness :
    (∀ p ∈ [0, 1], p ≤ 255) ∧
    OtsuCandidate (fun i => [0, 1].count i) ([0, 1] : List ℕ).length 0 ∧
    (OtsuCandidate (fun i => [0, 1].count i) ([0, 1] : List ℕ).length
        (otsuThreshold [0, 1]) ∧
      (∀ c, OtsuCandidate (fun i => [0, 1].count i) ([0, 1] : List ℕ).length c →
        otsuVar (fun i => [0, 1].count i) ([0, 1] : List ℕ).length
            (SBcum (fun i => [0, 1].count i) 256) c ≤
          otsuVar (fun i => [0, 1].count i) ([0, 1] : List ℕ).length
            (SBcum (fun i => [0, 1].count i) 256) (otsuThreshold [0, 1])) ∧
      (∀ c, c < otsuThreshold [0, 1] →
        OtsuCandidate (fun i => [0, 1].count i) ([0, 1] : List ℕ).length c →
        otsuVar (fun i => [0, 1].count i) ([0, 1] : List ℕ).length
            (SBcum (fun i => [0, 1].count i) 256) c <
          otsuVar (fun i => [0, 1].count i) ([0, 1] : List ℕ).length
            (SBcum (fun i => [0, 1].count i) 256) (otsuThreshold [0, 1]))) :=
  ⟨by decide, by decide, otsu_first_argmax [0, 1] (by decide) 0 (by decide)⟩

/-- Claim C8: on a non-empty uniform image every split has an empty
background or an empty foreground, so the scan never evaluates a class
mean (no candidate split exists, hence no division is reached), never
records a positive variance, and deterministically returns the initial
threshold 0; the output is the image thresholded at 0. -/
theorem otsu_uniform_degenerate (img : DynImage) (n k : ℕ) (hn : 0 < n) (hk : k ≤ 255)
    (h : toLuma8 img = List.replicate n k) :
    otsuThreshold (toLuma8 img) = 0 ∧
    (∀ t, ¬ OtsuCandidate (fun i => (toLuma8 img).count i) (toLuma8 img).length t) ∧
    apply_otsu_threshold img = apply_manual_threshold img 0 := by
  have hcount : ∀ i, (toLuma8 img).count i = if i = k then n else 0 := by
    intro i
    rw [h, List.count_replicate]
    by_cases hik : i = k
    · subst hik
      simp
    · simp [beq_iff_eq, hik, Ne.symm hik]
  have hW : ∀ t, Wcum (fun i => (toLuma8 img).count i) t = if k < t then n else 0 := by
    intro t
    unfold Wcum
    calc (∑ i ∈ Finset.range t, (toLuma8 img).count i)
        = ∑ i ∈ Finset.range t, (if i = k then n else 0) :=
          Finset.sum_congr rfl fun i _ => hcount i
      _ = if k ∈ Finset.range t then n else 0 :=
          Finset.sum_ite_eq' (Finset.range t) k fun _ => n
      _ = if k < t then n else 0 := by simp [Finset.mem_range]
  have hlen : (toLuma8 img).length = n := by rw [h, List.length_replicate]
  have htot : Wcum (fun i => (toLuma8 img).count i) 256 = (toLuma8 img).length := by
    rw [hW 256, if_pos (by omega), hlen]
  have hnone : ∀ t, ¬ OtsuCandidate (fun i => (toLuma8 img).count i)
      (toLuma8 img).length t := by
    intro t hc
    obtain ⟨-, h1, h2⟩ := hc
    rw [hW (t + 1)] at h1 h2
    rw [hlen] at h2
    by_cases hkt : k < t + 1
    · rw [if_pos hkt] at h2
      exact lt_irrefl n h2
    · rw [if_neg hkt] at h1
      exact lt_irrefl 0 h1
  have hth : otsuThreshold (toLuma8 img) = 0 := by
    rcases otsuThreshold_spec (toLuma8 img) htot with ⟨h0, -⟩ | ⟨hc, -, -⟩
    · exact h0
    · exact absurd hc (hnone _)
  refine ⟨hth, hnone, ?_⟩
  unfold apply_otsu_threshold
  rw [if_neg (by rw [hlen]; omega), hth]

/-- Claim C8 witness. -/
theorem otsu_uniform_degenerate_witness :
    (0 < 2 ∧ 100 ≤ 255 ∧ toLuma8 (DynImage.luma8 [100, 100]) = List.replicate 2 100) ∧
    (otsuThreshold (toLuma8 (DynImage.luma8 [100, 100])) = 0 ∧
      (∀ t, ¬ OtsuCandidate (fun i => (toLuma8 (DynImage.luma8 [100, 100])).count i)
        (toLuma8 (DynImage.luma8 [100, 100])).length t) ∧
      apply_otsu_threshold (DynImage.luma8 [100, 100]) =
        apply_manual_threshold (DynImage.luma8 [100, 100]) 0) :=
  ⟨⟨by decide, by decide, rfl⟩,
    otsu_uniform_degenerate (DynImage.luma8 [100, 100]) 2 100 (by decide) (by decide) rfl⟩
